import Mathlib

/-!
Shallow embedding of `galpy/orbit_src/orbit_c_ext/integratePlanarOrbit.c`.

The C file has four functions:
  * `integratePlanarOrbit` — builds an array of `struct leapFuncArg` (one per
    potential type code; only code 0 is handled by the `switch`, any other code
    leaves the struct uninitialized and does not advance the parameter cursor),
    calls the external `leapfrog` engine, then frees each `args` buffer and the
    array itself;
  * `evalPlanarRectForce` — converts a rectangular position to polar
    coordinates, sums the radial and angular forces over all terms, and
    transforms the net force back to rectangular components;
  * `calcPlanarRforce` / `calcPlanarphiforce` — summation loops over the term
    array, advancing and then restoring the traversal pointer.

Doubles are embedded as `ℝ`, the `double *` parameter region as a total memory
function `ℕ → ℝ` with an explicit read cursor (pointer arithmetic on
`pot_args`), and the term array as a `List`.  The external force-law providers
(`galpy_potentials.h`) and the `leapfrog` engine are outside the shown source;
the providers are abstract function parameters except for `ZeroPlanarForce`,
which the spec pins down, and the driver is modelled as the event trace it
performs around the opaque engine call.
-/

/-- The type of a force-law provider `(R, φ, nargs, args) → force`
(`galpy_potentials.h` signature). -/
abbrev PotFn : Type := ℝ → ℝ → ℕ → List ℝ → ℝ

/-- Modelled from the spec: `ZeroPlanarForce` is the constant-zero angular
force provider registered for potentials with no angular component; its body
lives in the external `galpy_potentials` library, outside the shown source. -/
def ZeroPlanarForce : PotFn := fun _R _phi _nargs _args => 0

/-- `struct leapFuncArg`: one bound force term. -/
structure ForceTerm where
  planarRforce : PotFn
  planarphiforce : PotFn
  nargs : ℕ
  args : List ℝ

/-- `R = sqrt(x*x + y*y)` (line 75 of the C file). -/
noncomputable def planarR (x y : ℝ) : ℝ := Real.sqrt (x * x + y * y)

/-- `phi = acos(x/R); if (y < 0.) phi = phi + 2.*M_PI;`
(lines 76 and 79 of the C file). -/
noncomputable def planarPhi (x y : ℝ) : ℝ :=
  if y < 0 then Real.arccos (x / planarR x y) + 2 * Real.pi
  else Real.arccos (x / planarR x y)

/-- `sinphi = y/R` (line 77). -/
noncomputable def planarSinphi (x y : ℝ) : ℝ := y / planarR x y

/-- `cosphi = x/R` (line 78). -/
noncomputable def planarCosphi (x y : ℝ) : ℝ := x / planarR x y

/-- `calcPlanarRforce`: the loop `Rforce += leapFuncArgs->planarRforce(R, phi,
leapFuncArgs->nargs, leapFuncArgs->args); leapFuncArgs++;` followed by
`leapFuncArgs -= nargs`.  The traversal pointer is threaded through as the
returned list, so that pointer restoration (and the absence of writes through
it) is part of the model. -/
noncomputable def calcPlanarRforce (R phi t : ℝ) : List ForceTerm → ℝ × List ForceTerm
  | [] => (0, [])
  | f :: rest =>
      let v := f.planarRforce R phi f.nargs f.args
      let p := calcPlanarRforce R phi t rest
      (v + p.1, f :: p.2)

/-- `calcPlanarphiforce`: same loop shape over `planarphiforce`. -/
noncomputable def calcPlanarphiforce (R phi t : ℝ) : List ForceTerm → ℝ × List ForceTerm
  | [] => (0, [])
  | f :: rest =>
      let v := f.planarphiforce R phi f.nargs f.args
      let p := calcPlanarphiforce R phi t rest
      (v + p.1, f :: p.2)

/-- `evalPlanarRectForce`: polar decomposition, force summation, and the
back-transform `a[0] = cosphi*Rforce - 1./R*sinphi*phiforce;
a[1] = sinphi*Rforce + 1./R*cosphi*phiforce;`.  Returns the acceleration pair
together with the term sequence as left behind by the two summation loops. -/
noncomputable def evalPlanarRectForce (t x y : ℝ) (leapFuncArgs : List ForceTerm) :
    (ℝ × ℝ) × List ForceTerm :=
  let R := planarR x y
  let phi := planarPhi x y
  let sinphi := planarSinphi x y
  let cosphi := planarCosphi x y
  let r1 := calcPlanarRforce R phi t leapFuncArgs
  let r2 := calcPlanarphiforce R phi t r1.2
  ((cosphi * r1.1 - 1 / R * sinphi * r2.1,
    sinphi * r1.1 + 1 / R * cosphi * r2.1), r2.2)

/-- The builder loop of `integratePlanarOrbit` (lines 38–54): one `switch` per
type code.  `case 0` fills in the logarithmic-halo radial force, the zero
angular force, `nargs = 2`, and copies two values from the parameter cursor,
advancing it; any other code leaves the term uninitialized (`none`) and leaves
the cursor where it was, since the `switch` has no `default`.  `logHaloRforce`
stands for the external `LogarithmicHaloPotentialPlanarRforce`; `mem` is the
memory the `pot_args` pointer reads from and `c` the current cursor. -/
noncomputable def buildTerms (logHaloRforce : PotFn) (mem : ℕ → ℝ) :
    List ℤ → ℕ → List (Option ForceTerm) × ℕ
  | [], c => ([], c)
  | code :: rest, c =>
      if code = 0 then
        let term : ForceTerm := ⟨logHaloRforce, ZeroPlanarForce, 2, [mem c, mem (c + 1)]⟩
        let p := buildTerms logHaloRforce mem rest (c + 2)
        (some term :: p.1, p.2)
      else
        let p := buildTerms logHaloRforce mem rest c
        (none :: p.1, p.2)

/-- Resource and control events performed by one `integratePlanarOrbit` call. -/
inductive Event where
  | allocSeq : Event
  | allocArgs : ℕ → Event
  | engineCall : Event
  | freeArgs : ℕ → Event
  | freeSeq : Event
deriving DecidableEq

/-- Allocation events of the builder loop: term `i` gets an `args` buffer
(`malloc` inside `case 0`) exactly when its code is 0; otherwise nothing is
allocated for it. -/
def buildEvents : List ℤ → ℕ → List Event
  | [], _ => []
  | code :: rest, i =>
      if code = 0 then Event.allocArgs i :: buildEvents rest (i + 1)
      else buildEvents rest (i + 1)

/-- The straight-line event trace of `integratePlanarOrbit`: allocate the term
array, run the builder loop, call `leapfrog` unconditionally, then free
`leapFuncArgs->args` for every index `0 ≤ ii < npot` and free the array.  The
C function has a single exit path and no branch after the builder. -/
def driverEvents (pot_type : List ℤ) : List Event :=
  (Event.allocSeq :: buildEvents pot_type 0)
    ++ Event.engineCall ::
      ((List.range pot_type.length).map Event.freeArgs ++ [Event.freeSeq])

/-! ### Helper lemmas -/

lemma calcPlanarRforce_snd (R phi t : ℝ) (l : List ForceTerm) :
    (calcPlanarRforce R phi t l).2 = l := by
  induction l with
  | nil => rfl
  | cons f rest ih => simp [calcPlanarRforce, ih]

lemma calcPlanarphiforce_snd (R phi t : ℝ) (l : List ForceTerm) :
    (calcPlanarphiforce R phi t l).2 = l := by
  induction l with
  | nil => rfl
  | cons f rest ih => simp [calcPlanarphiforce, ih]

lemma calcPlanarRforce_fst (R phi t : ℝ) (l : List ForceTerm) :
    (calcPlanarRforce R phi t l).1 =
      (l.map fun f => f.planarRforce R phi f.nargs f.args).sum := by
  induction l with
  | nil => rfl
  | cons f rest ih => simp [calcPlanarRforce, ih]

lemma calcPlanarphiforce_fst (R phi t : ℝ) (l : List ForceTerm) :
    (calcPlanarphiforce R phi t l).1 =
      (l.map fun f => f.planarphiforce R phi f.nargs f.args).sum := by
  induction l with
  | nil => rfl
  | cons f rest ih => simp [calcPlanarphiforce, ih]

lemma evalPlanarRectForce_fst (t x y : ℝ) (l : List ForceTerm) :
    (evalPlanarRectForce t x y l).1 =
      (planarCosphi x y *
          (l.map fun f => f.planarRforce (planarR x y) (planarPhi x y) f.nargs f.args).sum
        - 1 / planarR x y * planarSinphi x y *
          (l.map fun f => f.planarphiforce (planarR x y) (planarPhi x y) f.nargs f.args).sum,
       planarSinphi x y *
          (l.map fun f => f.planarRforce (planarR x y) (planarPhi x y) f.nargs f.args).sum
        + 1 / planarR x y * planarCosphi x y *
          (l.map fun f => f.planarphiforce (planarR x y) (planarPhi x y) f.nargs f.args).sum) := by
  simp [evalPlanarRectForce, calcPlanarRforce_fst, calcPlanarphiforce_fst,
    calcPlanarRforce_snd]

lemma evalPlanarRectForce_snd (t x y : ℝ) (l : List ForceTerm) :
    (evalPlanarRectForce t x y l).2 = l := by
  simp [evalPlanarRectForce, calcPlanarRforce_snd, calcPlanarphiforce_snd]

lemma buildTerms_all_known (f : PotFn) (mem : ℕ → ℝ) :
    ∀ (codes : List ℤ) (k : ℕ), (∀ c ∈ codes, c = 0) →
      buildTerms f mem codes k =
        ((List.range' k codes.length 2).map
            (fun j => some ⟨f, ZeroPlanarForce, 2, [mem j, mem (j + 1)]⟩),
         k + 2 * codes.length) := by
  intro codes
  induction codes with
  | nil => intro k _; simp [buildTerms]
  | cons c rest ih =>
    intro k h
    have hc : c = 0 := h c (List.mem_cons_self _ _)
    subst hc
    have hrest : ∀ x ∈ rest, x = (0 : ℤ) := fun x hx => h x (List.mem_cons_of_mem _ hx)
    simp only [buildTerms, if_pos rfl]
    rw [ih (k + 2) hrest]
    simp only [List.length_cons, List.range'_succ, List.map_cons, if_true]
    simp only [Prod.mk.injEq]
    exact ⟨trivial, by omega⟩

lemma buildEvents_only_alloc :
    ∀ (codes : List ℤ) (k : ℕ) (e : Event),
      e ∈ buildEvents codes k → ∃ j, k ≤ j ∧ e = Event.allocArgs j := by
  intro codes
  induction codes with
  | nil => intro k e h; simp [buildEvents] at h
  | cons c rest ih =>
    intro k e h
    simp only [buildEvents] at h
    by_cases hc : c = 0
    · rw [if_pos hc] at h
      rcases List.mem_cons.mp h with h1 | h2
      · exact ⟨k, le_refl k, h1⟩
      · obtain ⟨j, hj, he⟩ := ih (k + 1) e h2
        exact ⟨j, by omega, he⟩
    · rw [if_neg hc] at h
      obtain ⟨j, hj, he⟩ := ih (k + 1) e h
      exact ⟨j, by omega, he⟩

lemma buildEvents_count_allocArgs_lt :
    ∀ (codes : List ℤ) (k i : ℕ), i < k →
      (buildEvents codes k).count (Event.allocArgs i) = 0 := by
  intro codes k i hik
  rw [List.count_eq_zero]
  intro hmem
  obtain ⟨j, hj, he⟩ := buildEvents_only_alloc codes k _ hmem
  cases he
  omega

lemma buildEvents_count_allocArgs :
    ∀ (codes : List ℤ) (k i : ℕ), (∀ c ∈ codes, c = 0) →
      k ≤ i → i < k + codes.length →
      (buildEvents codes k).count (Event.allocArgs i) = 1 := by
  intro codes
  induction codes with
  | nil => intro k i _ h1 h2; simp at h2; omega
  | cons c rest ih =>
    intro k i h hki hilen
    have hc : c = 0 := h c (List.mem_cons_self _ _)
    have hrest : ∀ x ∈ rest, x = (0 : ℤ) := fun x hx => h x (List.mem_cons_of_mem _ hx)
    simp only [buildEvents, if_pos hc]
    rcases Nat.eq_or_lt_of_le hki with heq | hlt
    · subst heq
      rw [List.count_cons]
      rw [buildEvents_count_allocArgs_lt rest (k + 1) k (by omega)]
      simp
    · rw [List.count_cons]
      rw [ih (k + 1) i hrest (by omega) (by simp at hilen; omega)]
      have : Event.allocArgs k ≠ Event.allocArgs i := by
        intro hcon; cases hcon; omega
      simp [this]

lemma planarR_one_zero : planarR 1 0 = 1 := by
  rw [planarR]
  norm_num

/-- Concrete force terms used as witnesses: a radial-only term whose radial
force is `R` and one whose radial force is the constant `2`; both use the
constant-zero angular provider, as every term built by the shown core does. -/
noncomputable def termA : ForceTerm := ⟨fun R _ _ _ => R, ZeroPlanarForce, 0, []⟩

noncomputable def termB : ForceTerm := ⟨fun _ _ _ _ => 2, ZeroPlanarForce, 0, []⟩

/-- C2: at the input (x, y) = (0, -1) the angle computed by the evaluator
(lines 76 and 79: `acos(x/R)` then `+ 2π` for `y < 0`) equals `5π/2`, which is
strictly greater than `2π` — it lies neither in `(π, 2π)` nor in `[0, 2π)`,
contradicting the claimed quadrant correctness. -/
theorem planarPhi_quadrant_violation :
    planarPhi 0 (-1) = 5 / 2 * Real.pi ∧ 2 * Real.pi < planarPhi 0 (-1) := by
  have hR : planarR 0 (-1) = 1 := by
    rw [planarR]
    norm_num
  have hphi : planarPhi 0 (-1) = Real.arccos 0 + 2 * Real.pi := by
    rw [planarPhi, if_pos (by norm_num : (-1 : ℝ) < 0), hR, div_one]
  constructor
  · rw [hphi, Real.arccos_zero]
    ring
  · rw [hphi, Real.arccos_zero]
    nlinarith [Real.pi_pos]

/-- C4: for `R > 0` the evaluator returns exactly
`ax = cosφ·Rforce − (1/R)·sinφ·phiforce` and
`ay = sinφ·Rforce + (1/R)·cosφ·phiforce`, with `cosφ = x/R`, `sinφ = y/R`, and
`Rforce`, `phiforce` the sums of the per-term radial and angular forces. -/
theorem evaluator_formula (t x y : ℝ) (terms : List ForceTerm)
    (hR : 0 < planarR x y) :
    (evalPlanarRectForce t x y terms).1 =
      (planarCosphi x y * (terms.map fun f =>
            f.planarRforce (planarR x y) (planarPhi x y) f.nargs f.args).sum
        - 1 / planarR x y * planarSinphi x y * (terms.map fun f =>
            f.planarphiforce (planarR x y) (planarPhi x y) f.nargs f.args).sum,
       planarSinphi x y * (terms.map fun f =>
            f.planarRforce (planarR x y) (planarPhi x y) f.nargs f.args).sum
        + 1 / planarR x y * planarCosphi x y * (terms.map fun f =>
            f.planarphiforce (planarR x y) (planarPhi x y) f.nargs f.args).sum) :=
  evalPlanarRectForce_fst t x y terms

/-- Witness for C4 at `t = 0`, `(x, y) = (1, 0)`, terms `[termA, termB]`. -/
theorem evaluator_formula_witness :
    0 < planarR 1 0 ∧
    (evalPlanarRectForce 0 1 0 [termA, termB]).1 =
      (planarCosphi 1 0 * (([termA, termB] : List ForceTerm).map fun f =>
            f.planarRforce (planarR 1 0) (planarPhi 1 0) f.nargs f.args).sum
        - 1 / planarR 1 0 * planarSinphi 1 0 * (([termA, termB] : List ForceTerm).map fun f =>
            f.planarphiforce (planarR 1 0) (planarPhi 1 0) f.nargs f.args).sum,
       planarSinphi 1 0 * (([termA, termB] : List ForceTerm).map fun f =>
            f.planarRforce (planarR 1 0) (planarPhi 1 0) f.nargs f.args).sum
        + 1 / planarR 1 0 * planarCosphi 1 0 * (([termA, termB] : List ForceTerm).map fun f =>
            f.planarphiforce (planarR 1 0) (planarPhi 1 0) f.nargs f.args).sum) := by
  have hR : (0 : ℝ) < planarR 1 0 := by
    rw [planarR_one_zero]
    norm_num
  exact ⟨hR, evaluator_formula 0 1 0 [termA, termB] hR⟩

/-- C7: the evaluator is pure: it returns the Force Term Sequence unchanged,
and two calls with equal time, position and sequence return equal results. -/
theorem evaluator_pure (t x y : ℝ) (terms : List ForceTerm) :
    (evalPlanarRectForce t x y terms).2 = terms ∧
    ∀ (t2 x2 y2 : ℝ) (terms2 : List ForceTerm),
      t2 = t → x2 = x → y2 = y → terms2 = terms →
      evalPlanarRectForce t2 x2 y2 terms2 = evalPlanarRectForce t x y terms := by
  refine ⟨evalPlanarRectForce_snd t x y terms, ?_⟩
  rintro t2 x2 y2 terms2 rfl rfl rfl rfl
  rfl

/-- Witness for C7 at `t = 0`, `(x, y) = (1, 0)`, terms `[termA]`. -/
theorem evaluator_pure_witness :
    (evalPlanarRectForce 0 1 0 [termA]).2 = [termA] ∧
    evalPlanarRectForce 0 1 0 [termA] = evalPlanarRectForce 0 1 0 [termA] := by
  obtain ⟨h1, h2⟩ := evaluator_pure 0 1 0 [termA]
  exact ⟨h1, h2 0 1 0 [termA] rfl rfl rfl rfl⟩

/-- C8: permuting the Force Term Sequence does not change the acceleration
returned by the evaluator. -/
theorem evaluator_perm_invariant (t x y : ℝ) (l1 l2 : List ForceTerm)
    (hp : l1.Perm l2) (hR : 0 < planarR x y) :
    (evalPlanarRectForce t x y l1).1 = (evalPlanarRectForce t x y l2).1 := by
  have h1 := (hp.map (fun f : ForceTerm =>
      f.planarRforce (planarR x y) (planarPhi x y) f.nargs f.args)).sum_eq
  have h2 := (hp.map (fun f : ForceTerm =>
      f.planarphiforce (planarR x y) (planarPhi x y) f.nargs f.args)).sum_eq
  rw [evalPlanarRectForce_fst, evalPlanarRectForce_fst, h1, h2]

/-- Witness for C8: swapping the two terms `[termA, termB]` at `(1, 0)`. -/
theorem evaluator_perm_invariant_witness :
    ([termA, termB] : List ForceTerm).Perm [termB, termA] ∧ 0 < planarR 1 0 ∧
    (evalPlanarRectForce 0 1 0 [termA, termB]).1 =
      (evalPlanarRectForce 0 1 0 [termB, termA]).1 := by
  have hp : ([termA, termB] : List ForceTerm).Perm [termB, termA] :=
    List.Perm.swap termB termA []
  have hR : (0 : ℝ) < planarR 1 0 := by
    rw [planarR_one_zero]
    norm_num
  exact ⟨hp, hR, evaluator_perm_invariant 0 1 0 _ _ hp hR⟩

/-- C9: with `R > 0`, reconstructing the position from the evaluator's polar
representation (`R·cosφ`, `R·sinφ` with `cosφ = x/R`, `sinφ = y/R` as
computed) recovers `(x, y)`. -/
theorem coordinate_roundtrip (x y : ℝ) (hx : 0 < x) (hR : 0 < planarR x y) :
    planarR x y * planarCosphi x y = x ∧ planarR x y * planarSinphi x y = y := by
  have hne : planarR x y ≠ 0 := ne_of_gt hR
  constructor
  · rw [planarCosphi]
    field_simp
  · rw [planarSinphi]
    field_simp

/-- Witness for C9 at `(x, y) = (3, 4)`, where `R = 5`. -/
theorem coordinate_roundtrip_witness :
    (0 : ℝ) < 3 ∧ 0 < planarR 3 4 ∧
    planarR 3 4 * planarCosphi 3 4 = 3 ∧ planarR 3 4 * planarSinphi 3 4 = 4 := by
  have hR : (0 : ℝ) < planarR 3 4 := by
    rw [planarR]
    have h25 : (3 : ℝ) * 3 + 4 * 4 = 25 := by norm_num
    rw [h25]
    exact Real.sqrt_pos.mpr (by norm_num)
  obtain ⟨h1, h2⟩ := coordinate_roundtrip 3 4 (by norm_num) hR
  exact ⟨by norm_num, hR, h1, h2⟩

/-- C10: if every term's angular provider is the constant-zero force, the
summed `phiforce` is 0 and the acceleration is radial:
`ax = cosφ·Rforce`, `ay = sinφ·Rforce`, and `ax·y = ay·x`. -/
theorem zero_phiforce_radial (t x y : ℝ) (terms : List ForceTerm)
    (hzero : ∀ f ∈ terms, ∀ R phi : ℝ, ∀ n : ℕ, ∀ a : List ℝ,
      f.planarphiforce R phi n a = 0)
    (hR : 0 < planarR x y) :
    (calcPlanarphiforce (planarR x y) (planarPhi x y) t terms).1 = 0 ∧
    (evalPlanarRectForce t x y terms).1.1 =
      planarCosphi x y * (calcPlanarRforce (planarR x y) (planarPhi x y) t terms).1 ∧
    (evalPlanarRectForce t x y terms).1.2 =
      planarSinphi x y * (calcPlanarRforce (planarR x y) (planarPhi x y) t terms).1 ∧
    (evalPlanarRectForce t x y terms).1.1 * y =
      (evalPlanarRectForce t x y terms).1.2 * x := by
  have hps : (terms.map fun f =>
      f.planarphiforce (planarR x y) (planarPhi x y) f.nargs f.args).sum = 0 := by
    rw [List.sum_eq_zero]
    intro v hv
    simp only [List.mem_map] at hv
    obtain ⟨f, hf, rfl⟩ := hv
    exact hzero f hf _ _ _ _
  have hax : (evalPlanarRectForce t x y terms).1.1 =
      planarCosphi x y * (calcPlanarRforce (planarR x y) (planarPhi x y) t terms).1 := by
    rw [evalPlanarRectForce_fst, calcPlanarRforce_fst]
    simp only [hps]
    ring
  have hay : (evalPlanarRectForce t x y terms).1.2 =
      planarSinphi x y * (calcPlanarRforce (planarR x y) (planarPhi x y) t terms).1 := by
    rw [evalPlanarRectForce_fst, calcPlanarRforce_fst]
    simp only [hps]
    ring
  refine ⟨?_, hax, hay, ?_⟩
  · rw [calcPlanarphiforce_fst]
    exact hps
  · rw [hax, hay, planarCosphi, planarSinphi]
    ring

/-- Witness for C10 at `t = 0`, `(x, y) = (1, 0)`, terms `[termA]`. -/
theorem zero_phiforce_radial_witness :
    0 < planarR 1 0 ∧
    (calcPlanarphiforce (planarR 1 0) (planarPhi 1 0) 0 [termA]).1 = 0 ∧
    (evalPlanarRectForce 0 1 0 [termA]).1.1 * 0 =
      (evalPlanarRectForce 0 1 0 [termA]).1.2 * 1 := by
  have hzero : ∀ f ∈ ([termA] : List ForceTerm), ∀ R phi : ℝ, ∀ n : ℕ, ∀ a : List ℝ,
      f.planarphiforce R phi n a = 0 := by
    intro f hf R phi n a
    rw [List.mem_singleton] at hf
    subst hf
    rfl
  have hR : (0 : ℝ) < planarR 1 0 := by
    rw [planarR_one_zero]
    norm_num
  obtain ⟨h1, _, _, h4⟩ := zero_phiforce_radial 0 1 0 [termA] hzero hR
  exact ⟨hR, h1, h4⟩

/-- C5: when every type code is known (all 0 in the shown core), the builder
produces exactly `npot` Force Terms, the `i`-th holding the two parameter
values read at flat positions `2i` and `2i + 1`, and the read cursor ends at
`2·npot` — the total of `param_count` over the terms. -/
theorem build_known_codes (f : PotFn) (mem : ℕ → ℝ) (codes : List ℤ)
    (hall : ∀ c ∈ codes, c = 0) :
    (buildTerms f mem codes 0).1.length = codes.length ∧
    (buildTerms f mem codes 0).2 = 2 * codes.length ∧
    ∀ i, i < codes.length →
      (buildTerms f mem codes 0).1[i]? =
        some (some ⟨f, ZeroPlanarForce, 2, [mem (2 * i), mem (2 * i + 1)]⟩) := by
  rw [buildTerms_all_known f mem codes 0 hall]
  refine ⟨by simp, by simp, ?_⟩
  intro i hi
  simp only [List.getElem?_map, List.getElem?_range' 0 2 hi, Option.map_some]
  norm_num

/-- Witness for C5: three known codes consume exactly six parameter values
and yield three terms with `param_count = 2` each. -/
theorem build_known_codes_witness :
    (∀ c ∈ ([0, 0, 0] : List ℤ), c = 0) ∧
    (buildTerms ZeroPlanarForce (fun j => (j : ℝ)) [0, 0, 0] 0).1.length = 3 ∧
    (buildTerms ZeroPlanarForce (fun j => (j : ℝ)) [0, 0, 0] 0).2 = 6 := by
  obtain ⟨h1, h2, _⟩ :=
    build_known_codes ZeroPlanarForce (fun j => (j : ℝ)) [0, 0, 0] (by decide)
  refine ⟨by decide, ?_, ?_⟩
  · rw [h1]
    rfl
  · rw [h2]
    rfl

/-- C1: for the unknown type code 99 the builder produces an uninitialized
term (`none`) — no error is signalled, the model has no error outcome at all —
and the driver trace still contains the engine call; the trace even releases
the never-allocated `args` slot of term 0. -/
theorem unknown_code_falls_through (f : PotFn) (mem : ℕ → ℝ) :
    buildTerms f mem [99] 0 = ([none], 0) ∧
    Event.engineCall ∈ driverEvents [99] ∧
    (driverEvents [99]).count (Event.allocArgs 0) = 0 ∧
    (driverEvents [99]).count (Event.freeArgs 0) = 1 := by
  refine ⟨?_, by decide, by decide, by decide⟩
  simp [buildTerms]

/-- C3: with three known codes the builder always advances the read cursor to
6 and returns three complete terms; the supplied flat length is never
consulted (the C function does not even receive it), so with only five values
supplied (positions 0–4) position 5 is read past the end and no
ParameterCountMismatch — no error of any kind — is raised. -/
theorem param_count_not_checked (f : PotFn) (mem : ℕ → ℝ) :
    buildTerms f mem [0, 0, 0] 0 =
      ([some ⟨f, ZeroPlanarForce, 2, [mem 0, mem 1]⟩,
        some ⟨f, ZeroPlanarForce, 2, [mem 2, mem 3]⟩,
        some ⟨f, ZeroPlanarForce, 2, [mem 4, mem 5]⟩], 6) := by
  rfl

lemma freeArgs_injective : Function.Injective Event.freeArgs := by
  intro a b h
  injection h

lemma count_map_freeArgs (n i : ℕ) (hi : i < n) :
    ((List.range n).map Event.freeArgs).count (Event.freeArgs i) = 1 := by
  rw [List.count_map_of_injective _ _ freeArgs_injective]
  exact List.count_eq_one_of_mem (List.nodup_range n) (List.mem_range.mpr hi)

lemma not_mem_map_freeArgs (n : ℕ) (e : Event)
    (he : ∀ j, e ≠ Event.freeArgs j) :
    e ∉ (List.range n).map Event.freeArgs := by
  intro hmem
  obtain ⟨j, _, hj⟩ := List.mem_map.mp hmem
  exact he j hj.symm

lemma buildEvents_count_non_alloc (codes : List ℤ) (k : ℕ) (e : Event)
    (he : ∀ j, e ≠ Event.allocArgs j) :
    (buildEvents codes k).count e = 0 := by
  rw [List.count_eq_zero]
  intro hmem
  obtain ⟨j, _, hj⟩ := buildEvents_only_alloc codes k e hmem
  exact he j hj

/-- C6 counterexample: the claim over every Integration Driver call fails.  On
the call with type codes `[99]`, term 0's `args` buffer is never allocated
(the `switch` has no matching case), yet the unconditional free loop still
emits a release event for slot 0 — in the C, a `free` of an uninitialized
pointer — so the per-call "each params buffer released exactly once, none
double-freed" discipline does not hold on this call. -/
theorem driver_frees_unallocated :
    (driverEvents [99]).count (Event.allocArgs 0) = 0 ∧
    (driverEvents [99]).count (Event.freeArgs 0) = 1 := by
  refine ⟨?_, ?_⟩ <;> decide

/-- C6 (amended): on a call whose type codes are all known, the driver trace calls the
engine exactly once, allocates and releases each term's `args` buffer exactly
once, releases the term sequence exactly once, and every release event occurs
strictly after the engine call — no leak and no double free. -/
theorem driver_releases_once (codes : List ℤ) (i : ℕ)
    (hall : ∀ c ∈ codes, c = 0) (hi : i < codes.length) :
    (driverEvents codes).count Event.engineCall = 1 ∧
    (driverEvents codes).count (Event.allocArgs i) = 1 ∧
    (driverEvents codes).count (Event.freeArgs i) = 1 ∧
    (driverEvents codes).count Event.freeSeq = 1 ∧
    ∃ pre post, driverEvents codes = pre ++ Event.engineCall :: post ∧
      (∀ e ∈ pre, e ≠ Event.freeArgs i ∧ e ≠ Event.freeSeq) ∧
      post.count (Event.freeArgs i) = 1 ∧ post.count Event.freeSeq = 1 := by
  have hBengine : (buildEvents codes 0).count Event.engineCall = 0 :=
    buildEvents_count_non_alloc codes 0 _ (fun j h => Event.noConfusion h)
  have hBfreeA : (buildEvents codes 0).count (Event.freeArgs i) = 0 :=
    buildEvents_count_non_alloc codes 0 _ (fun j h => Event.noConfusion h)
  have hBfreeS : (buildEvents codes 0).count Event.freeSeq = 0 :=
    buildEvents_count_non_alloc codes 0 _ (fun j h => Event.noConfusion h)
  have hBalloc : (buildEvents codes 0).count (Event.allocArgs i) = 1 :=
    buildEvents_count_allocArgs codes 0 i hall (Nat.zero_le i) (by omega)
  have hFengine : ((List.range codes.length).map Event.freeArgs).count
      Event.engineCall = 0 :=
    List.count_eq_zero.mpr
      (not_mem_map_freeArgs _ _ (fun j h => Event.noConfusion h))
  have hFalloc : ((List.range codes.length).map Event.freeArgs).count
      (Event.allocArgs i) = 0 :=
    List.count_eq_zero.mpr
      (not_mem_map_freeArgs _ _ (fun j h => Event.noConfusion h))
  have hFfreeS : ((List.range codes.length).map Event.freeArgs).count
      Event.freeSeq = 0 :=
    List.count_eq_zero.mpr
      (not_mem_map_freeArgs _ _ (fun j h => Event.noConfusion h))
  have hFfreeA : ((List.range codes.length).map Event.freeArgs).count
      (Event.freeArgs i) = 1 := count_map_freeArgs codes.length i hi
  refine ⟨?_, ?_, ?_, ?_,
    Event.allocSeq :: buildEvents codes 0,
    (List.range codes.length).map Event.freeArgs ++ [Event.freeSeq],
    rfl, ?_, ?_, ?_⟩
  · simp [driverEvents, List.count_append, List.count_cons, hBengine, hFengine]
  · simp [driverEvents, List.count_append, List.count_cons, hBalloc, hFalloc]
  · simp [driverEvents, List.count_append, List.count_cons, hBfreeA, hFfreeA]
  · simp [driverEvents, List.count_append, List.count_cons, hBfreeS, hFfreeS]
  · intro e he
    rcases List.mem_cons.mp he with h1 | h2
    · subst h1
      exact ⟨fun h => Event.noConfusion h, fun h => Event.noConfusion h⟩
    · obtain ⟨j, _, hj⟩ := buildEvents_only_alloc codes 0 e h2
      subst hj
      exact ⟨fun h => Event.noConfusion h, fun h => Event.noConfusion h⟩
  · simp [List.count_append, hFfreeA]
  · simp [List.count_append, hFfreeS]

/-- Witness for C6 with two known codes and term index 0. -/
theorem driver_releases_once_witness :
    (∀ c ∈ ([0, 0] : List ℤ), c = 0) ∧ 0 < ([0, 0] : List ℤ).length ∧
    (driverEvents [0, 0]).count Event.engineCall = 1 ∧
    (driverEvents [0, 0]).count (Event.allocArgs 0) = 1 ∧
    (driverEvents [0, 0]).count (Event.freeArgs 0) = 1 ∧
    (driverEvents [0, 0]).count Event.freeSeq = 1 := by
  obtain ⟨h1, h2, h3, h4, _⟩ := driver_releases_once [0, 0] 0 (by decide) (by decide)
  exact ⟨by decide, by decide, h1, h2, h3, h4⟩
